import Mathlib

/-!
Verification development for the BioSimSpace slice consisting of
`python/BioSimSpace/Sample/namd_process.py` (the NAMD process wrapper) and
`tests/Align/test_align.py` (the tests of the `BSS.Align` subsystem).

The first half embeds the NAMD process wrapper: the constructor and setup
logic, the PSF topology post-processing, the configuration generator, and the
working-directory bracketing of `start`.  The second half models the
`BSS.Align` entry points (`matchAtoms`, `merge`, `repartitionHydrogenMass`),
whose implementation is not part of this slice; those definitions are marked
`Modelled from the spec` and follow the specification text.

Python exceptions are modelled by the `PyError` type; fallible code returns
`Except PyError`.  Machine floats of the source are modelled by `ℚ`.
-/

/-- The Python exceptions raised by this code base. -/
inductive PyError where
  | nameError (n : String)
  | ioError (msg : String)
  | valueError (msg : String)
  | incompatibleError (msg : String)
  deriving DecidableEq, Repr

/-! ## PSF post-processing (`NamdProcess._setup`, lines 109-150) -/

/-- `containsTok pat l` holds when `pat` occurs as a contiguous run inside `l`;
this models the Python `tok in line` substring test. -/
def containsTok (pat : List Char) : List Char → Bool
  | [] => pat.isEmpty
  | c :: t => pat.isPrefixOf (c :: t) || containsTok pat t

/-- Substring test on strings, modelling Python `tok in line`. -/
def strHas (line tok : String) : Bool := containsTok tok.data line.data

/-- The empty donor record appended by `_setup` (line 137): `"%8d !NDON: donors" % 0`. -/
def donorRecord : String := "       0 !NDON: donors"

/-- The empty acceptor record appended by `_setup` (line 143). -/
def acceptorRecord : String := "       0 !NACC: acceptors"

/-- The empty non-bonded exclusion record appended by `_setup` (line 149). -/
def nnbRecord : String := "       0 !NNB: excluded"

/-- Shallow embedding of the PSF post-processing step of `NamdProcess._setup`
(lines 109-150), acting on the written file as a list of lines.  Fidelity
notes: the source reads a single line of the file (line 120, no loop) and
feeds it to an `if`/`elif` chain, so at most one of the three presence flags
can ever be set, and only from the first line; the flag `has_non_bonded` is
computed but never used, because the append condition for the non-bonded
exclusion record (line 147) reuses `has_acceptors`. -/
def psfPostprocess (lines : List String) : List String :=
  let firstLine := lines.headD ""
  let has_donors := strHas firstLine "!NDON"
  let has_acceptors := !has_donors && strHas firstLine "NACC"
  let app1 := if has_donors then [] else [donorRecord]
  let app2 := if has_acceptors then [] else [acceptorRecord]
  let app3 := if has_acceptors then [] else [nnbRecord]
  lines ++ app1 ++ app2 ++ app3

/-! ## Constructor and setup (`NamdProcess.__init__` and `_setup`) -/

/-- Auxiliary for `os.path.splitext` on a reversed character list: strip the
extension exactly when the basename has a dot preceded (within the basename)
by some non-dot character, as CPython's `posixpath.splitext` does. -/
def splitextRootRev (rev : List Char) : List Char :=
  match (rev.takeWhile (fun c => c != '/')).dropWhile (fun c => c != '.') with
  | [] => rev
  | _ :: restRev =>
    if restRev.any (fun c => c != '.') then
      rev.drop
        (((rev.takeWhile (fun c => c != '/')).takeWhile (fun c => c != '.')).length + 1)
    else rev

/-- The root component of `os.path.splitext(p)`, i.e. `p` with its extension
removed (used at line 98 to derive the velocity file name from the PDB file
name). -/
def os_path_splitext_root (p : String) : String :=
  ⟨(splitextRootRev p.data.reverse).reverse⟩

/-- The input molecular system, reduced to the single fact the wrapper
observes about it: whether every atom carries a velocity property (source
comment, lines 93-101: the velocity file is only generated when all atoms in
the system have a velocity property). -/
structure MolSystem where
  allAtomsHaveVelocity : Bool
  deriving DecidableEq, Repr

/-- The process descriptor built by the `NamdProcess` constructor. -/
structure NamdProcessState where
  exe : String
  name : String
  work_dir : String
  namd_file : String
  psf_file : String
  pdb_file : String
  param_file : String
  velocity_file : Option String
  input_files : List String
  deriving DecidableEq, Repr

/-- Shallow embedding of `NamdProcess.__init__` together with the input-file
bookkeeping of `_setup` (namd_process.py lines 23-107).  Fidelity notes: the
module imports only `os`, never `from os import path`, so both file-existence
checks (line 45 for a user-supplied executable and line 66 for a custom
configuration file) evaluate the unbound name `path` and raise `NameError`
before any input file is written; `Sire.Base.findExe` and the Sire file
writers are external and assumed to succeed (the found executable path is an
arbitrary constant here); the velocity file name is derived from the PDB file
name through `os.path.splitext` (line 98) and is written and appended to the
input list exactly when every atom has a velocity property. -/
def namdProcess_init (system : MolSystem) (exe : Option String) (is_custom : Bool)
    (name work_dir : String) : Except PyError NamdProcessState :=
  match exe with
  | some _ => .error (.nameError "path")
  | none =>
    let exePath := "/usr/bin/namd2"
    let psf_file := work_dir ++ "/" ++ name ++ ".psf"
    let pdb_file := work_dir ++ "/" ++ name ++ ".pdb"
    let param_file := work_dir ++ "/" ++ name ++ ".params"
    if is_custom then .error (.nameError "path")
    else
      let namd_file := work_dir ++ "/" ++ name ++ ".namd"
      let files0 := [namd_file, psf_file, pdb_file, param_file]
      let vel_file := os_path_splitext_root pdb_file ++ ".vel"
      let has_velocities := system.allAtomsHaveVelocity
      .ok { exe := exePath, name := name, work_dir := work_dir,
            namd_file := namd_file, psf_file := psf_file, pdb_file := pdb_file,
            param_file := param_file,
            velocity_file := if has_velocities then some vel_file else none,
            input_files := if has_velocities then files0 ++ [vel_file] else files0 }

/-! ## Process launch (`NamdProcess.start`, lines 278-294) -/

/-- The caller-visible operating-system state touched by `start`: the current
working directory of the calling process and the log of launched external
processes (each entry records the executable and its three arguments). -/
structure OSState where
  cwd : String
  launched : List (String × String × String × String)
  deriving DecidableEq, Repr

/-- Shallow embedding of `NamdProcess.start` (lines 278-294): save the cwd,
change to the work directory, launch the engine on
`name.namd`/`name.out`/`name.err`, change back to the saved cwd. -/
def namdProcess_start (st : NamdProcessState) (os : OSState) : OSState :=
  let dir := os.cwd
  let os1 : OSState := { os with cwd := st.work_dir }
  let os2 : OSState :=
    { os1 with launched := os1.launched ++
        [(st.exe, st.name ++ ".namd", st.name ++ ".out", st.name ++ ".err")] }
  { os2 with cwd := dir }

/-! ## Configuration generation (`NamdProcess._generate_config_file`) -/

/-- The protocol descriptor consumed by the configuration generator. -/
inductive ProtocolType where
  | minimisation
  | equilibration
  | custom
  deriving DecidableEq, Repr

/-- Simulation protocol parameters, as read by `_generate_config_file`. -/
structure Protocol where
  ptype : ProtocolType
  temperature : ℚ
  temperature_start : ℚ
  temperature_end : ℚ
  runtime : ℚ
  steps : ℕ
  is_restrained : Bool
  deriving DecidableEq, Repr

/-- Modelled from the spec: the `Protocol` class
(`python/BioSimSpace/Protocol/protocol.py`) is not part of this slice, only
its consumer is.  Per the spec, the temperature-reassignment block appears
only when the start and end temperatures differ, so a protocol is
constant-temperature exactly when they coincide. -/
def Protocol.isConstantTemp (p : Protocol) : Bool :=
  decide (p.temperature_start = p.temperature_end)

/-- One entry of the generated NAMD configuration file.  The boilerplate
lines are carried verbatim as `generic`; the protocol-dependent entries
carry their numeric payloads. -/
inductive ConfigEntry where
  | generic (line : String)
  | velocities (name : String)
  | cellBasis (i : ℕ) (x : ℚ)
  | cellOrigin (o : ℚ × ℚ × ℚ)
  | setTemperature (t : ℚ)
  | temperature (t : ℚ)
  | minimize (n : ℕ)
  | reassignFreq (n : ℤ)
  | reassignTemp (t : ℚ)
  | reassignIncr (n : ℤ)
  | reassignHold (t : ℚ)
  | runSteps (n : ℤ)
  deriving DecidableEq, Repr

/-- The generic configuration block written by `_generate_config_file`
before any protocol-dependent entry (lines 166-209). -/
def configHeader (name : String) (hasVel : Bool) (box origin : ℚ × ℚ × ℚ) :
    List ConfigEntry :=
  [.generic ("structure " ++ name ++ ".psf"),
   .generic ("coordinates " ++ name ++ ".pdb")] ++
  (if hasVel then [.velocities name] else []) ++
  [.generic "paraTypeCharmm on",
   .generic ("parameters " ++ name ++ ".params"),
   .generic "exclude scaled1-4",
   .generic "switching on",
   .generic "switchdist 10.",
   .generic "cutoff 12.",
   .cellBasis 1 box.1, .cellBasis 2 box.2.1, .cellBasis 3 box.2.2,
   .cellOrigin origin,
   .generic "wrapAll on",
   .generic "PME yes",
   .generic "PMEGridSpacing 1.",
   .generic ("outputName " ++ name ++ "_out"),
   .generic "binaryOutput no",
   .generic "restartfreq 500",
   .generic "dcdfreq 500",
   .generic "xstFreq 500",
   .generic "outputEnergies 100",
   .generic "outputTiming 1000"]

/-- Shallow embedding of `NamdProcess._generate_config_file` (lines 160-272).
Fidelity notes: the minimisation branch writes a temperature entry and a
minimize entry (lines 212-214); the equilibration branch writes its fixed
block (lines 218-251) and then evaluates `protocol.is_restrained` at line
246, where the name `protocol` is unbound in that scope (the module imports
`Protocol` and `ProtocolType` only), so every equilibration protocol raises
`NameError` there, before the step count (line 254, which itself reads the
misspelled attribute `self._protcol`) or the `run` line is ever written.  The
raise is modelled as the `Except` error value; the partially written file is
not modelled. -/
def generate_config_file (p : Protocol) (name : String) (hasVel : Bool)
    (box origin : ℚ × ℚ × ℚ) : Except PyError (List ConfigEntry) :=
  let header := configHeader name hasVel box origin
  match p.ptype with
  | .minimisation => .ok (header ++ [.temperature p.temperature, .minimize p.steps])
  | .equilibration => .error (.nameError "protocol")
  | .custom => .ok header

/-- The equilibration tail of `_generate_config_file` with its identifier
slips repaired (`protocol` at line 246, `self._protcol` at line 254 and
`self.protcol`/`self.protocol` at lines 260-266 all read as
`self._protocol`), stating the evident intent of lines 216-269. -/
def generate_config_file_fixed (p : Protocol) (name : String) (hasVel : Bool)
    (box origin : ℚ × ℚ × ℚ) : Except PyError (List ConfigEntry) :=
  let header := configHeader name hasVel box origin
  match p.ptype with
  | .minimisation => .ok (header ++ [.temperature p.temperature, .minimize p.steps])
  | .equilibration =>
    let eqblock : List ConfigEntry :=
      [.setTemperature p.temperature_start, .temperature p.temperature_start,
       .generic "timestep 2.", .generic "rigidBonds all",
       .generic "nonbondedFreq 1", .generic "fullElectFrequency 2",
       .generic "langevin on", .generic "langevinDamping 1.",
       .generic "langevinTemp temperature", .generic "langevinHydrogen no",
       .generic "langevinPiston on", .generic "langevinPistonTarget 1.01325",
       .generic "langevinPistonPeriod 100.", .generic "langevinPistonDecay 50.",
       .generic "langevinPistonTemp temperature", .generic "useGroupPressure yes",
       .generic "useFlexibleCell no", .generic "useConstantArea no",
       .minimize 1000]
    let steps : ℤ := ⌈p.runtime / (2 / 1000 : ℚ)⌉
    let reassign : List ConfigEntry :=
      if p.isConstantTemp then []
      else
        let denom : ℚ := |p.temperature_end - p.temperature_start|
        let temp_step : ℤ := ⌈(steps : ℚ) / denom⌉
        [.reassignFreq steps, .reassignTemp p.temperature_start,
         .reassignIncr temp_step, .reassignHold p.temperature_end]
    .ok (header ++ eqblock ++ reassign ++ [.runSteps steps])
  | .custom => .ok header

/-- Whether a configuration entry belongs to the temperature-reassignment
block (`reassignFreq`/`reassignTemp`/`reassignIncr`/`reassignHold`). -/
def ConfigEntry.isReassign : ConfigEntry → Bool
  | .reassignFreq _ => true
  | .reassignTemp _ => true
  | .reassignIncr _ => true
  | .reassignHold _ => true
  | _ => false

/-- A concrete equilibration protocol (start 0 K, end 300 K, runtime
0.02 ns), matching the end-to-end scenario of the spec. -/
def eqProtocolExample : Protocol :=
  { ptype := .equilibration, temperature := 0, temperature_start := 0,
    temperature_end := 300, runtime := 1 / 50, steps := 0, is_restrained := false }

/-! ## The Align subsystem

`BSS.Align` (`matchAtoms`, `rmsdAlign`, `merge`, `repartitionHydrogenMass`)
is exercised by `tests/Align/test_align.py` but its implementation is not
part of this slice; the definitions below are modelled from the spec, which
describes the observable contract those tests rely on. -/

/-- A chemical element; `dummy` is the placeholder element of the
non-physical end state of a merged molecule. -/
inductive Elem where
  | H
  | C
  | N
  | O
  | S
  | dummy
  | other (sym : String)
  deriving DecidableEq, Repr

/-- An atom: element, charge, Lennard-Jones strength, mass, position. -/
structure Atom where
  elem : Elem
  charge : ℚ
  eps : ℚ
  mass : ℚ
  pos : ℚ × ℚ × ℚ
  deriving DecidableEq, Repr

/-- A bonded interaction term between the atoms at indices `i` and `j`,
with force constant `k` and equilibrium value `r0`. -/
structure BondT where
  i : ℕ
  j : ℕ
  k : ℚ
  r0 : ℚ
  deriving DecidableEq, Repr

/-- A molecule: a list of atoms (indexed by position) and its bond terms. -/
structure Molecule where
  atoms : List Atom
  bonds : List BondT
  deriving DecidableEq, Repr

/-- The number of atoms of a molecule. -/
def Molecule.nAtoms (m : Molecule) : ℕ := m.atoms.length

/-- The out-of-range placeholder atom (zero parameters, dummy element). -/
def defaultAtom : Atom :=
  { elem := .dummy, charge := 0, eps := 0, mass := 0, pos := (0, 0, 0) }

/-- Atom of a list at an index, totalised with `defaultAtom`. -/
def atomAtL (l : List Atom) (i : ℕ) : Atom := (l[i]?).getD defaultAtom

/-- Atom of a molecule at an index. -/
def atomAt (m : Molecule) (i : ℕ) : Atom := atomAtL m.atoms i

/-- Squared distance between two positions. -/
def sqDist (p q : ℚ × ℚ × ℚ) : ℚ :=
  (p.1 - q.1) ^ 2 + (p.2.1 - q.2.1) ^ 2 + (p.2.2 - q.2.2) ^ 2

/-- Inverse squared distance (zero at coincident points). -/
def invSq (p q : ℚ × ℚ × ℚ) : ℚ :=
  if sqDist p q = 0 then 0 else 1 / sqDist p q

/-- Pairwise Coulomb plus Lennard-Jones style interaction of two atoms,
the kernel of the intramolecular (`IntraCLJFF`/`IntraFF`) energy. -/
def cljPair (a b : Atom) : ℚ :=
  a.charge * b.charge * invSq a.pos b.pos + a.eps * b.eps * invSq a.pos b.pos ^ 3

/-- Sum of `f` over all unordered pairs of a list. -/
def pairSum (f : Atom → Atom → ℚ) : List Atom → ℚ
  | [] => 0
  | a :: rest => (rest.map (f a)).sum + pairSum f rest

/-- The intramolecular non-bonded energy of a set of atoms. -/
def intraCljEnergy (atoms : List Atom) : ℚ := pairSum cljPair atoms

/-- The energy of one bonded term over a list of atoms. -/
def bondEnergy (atoms : List Atom) (b : BondT) : ℚ :=
  b.k * (sqDist (atomAtL atoms b.i).pos (atomAtL atoms b.j).pos - b.r0) ^ 2

/-- The internal (bonded-term) energy of a set of atoms, the model of the
`InternalFF` energy. -/
def internalEnergy (atoms : List Atom) (bonds : List BondT) : ℚ :=
  (bonds.map (bondEnergy atoms)).sum

/-! ### matchAtoms -/

/-- Whether one pre-match pair of (Python, hence possibly negative) atom
indices lies within the valid ranges of both molecules. -/
def validPrematchPair (n0 n1 : ℕ) (kv : ℤ × ℤ) : Bool :=
  decide (0 ≤ kv.1) && decide (kv.1 < (n0 : ℤ)) &&
  decide (0 ≤ kv.2) && decide (kv.2 < (n1 : ℤ))

/-- Greedy completion of a partial mapping: the supplied pairs first,
then the still-unmatched indices of either molecule paired off in order. -/
def extendMapping (n0 n1 : ℕ) (pre : List (ℕ × ℕ)) : List (ℕ × ℕ) :=
  let freeKeys := (List.range n0).filter (fun i => !(pre.any (fun kv => kv.1 == i)))
  let freeVals := (List.range n1).filter (fun j => !(pre.any (fun kv => kv.2 == j)))
  pre ++ freeKeys.zip freeVals

/-- Modelled from the spec: `BSS.Align.matchAtoms` is not under `src/`
(only its tests are).  Per the spec it returns a partial injective
correspondence between the atom indices of the two molecules that contains
every supplied pre-match pair unchanged, and fails validation with a
`ValueError` when a pre-match references an index outside either molecule's
valid range.  The maximum-common-substructure search behind the extension
is opaque here and modelled as a greedy pairing of the unmatched indices. -/
def matchAtoms (m0 m1 : Molecule) (prematch : List (ℤ × ℤ)) :
    Except PyError (List (ℕ × ℕ)) :=
  if prematch.all (validPrematchPair m0.nAtoms m1.nAtoms) then
    .ok (extendMapping m0.nAtoms m1.nAtoms
      (prematch.map (fun kv => (kv.1.toNat, kv.2.toNat))))
  else .error (.valueError "invalid prematch")

/-! ### Ring analysis, for merge -/

/-- Whether two atom indices are bonded. -/
def adjacent (bonds : List BondT) (u v : ℕ) : Bool :=
  bonds.any (fun b => (b.i == u && b.j == v) || (b.i == v && b.j == u))

/-- The bonded neighbours of an atom. -/
def neighborsOf (m : Molecule) (u : ℕ) : List ℕ :=
  (List.range m.nAtoms).filter (fun v => adjacent m.bonds u v)

/-- One breadth-first expansion step over the bond graph, never crossing
the edge between `a` and `b`. -/
def stepAvoid (m : Molecule) (a b : ℕ) (cur : List ℕ) : List ℕ :=
  (cur.flatMap (fun u => u :: (neighborsOf m u).filter
    (fun v => !((u == a && v == b) || (u == b && v == a))))).dedup

/-- The atoms reachable from `s` in at most `k` steps avoiding the edge
between `a` and `b`. -/
def reachedAvoiding (m : Molecule) (a b s k : ℕ) : List ℕ :=
  (stepAvoid m a b)^[k] [s]

/-- A bond lies on a ring exactly when its endpoints stay connected after
removing it. -/
def ringEdge (m : Molecule) (u v : ℕ) : Bool :=
  adjacent m.bonds u v && (reachedAvoiding m u v u m.nAtoms).contains v

/-- Length of the shortest path between the endpoints of an edge that
avoids the edge itself (so the smallest ring through the edge has this
many atoms plus none: size = distance + 1); `none` when not on a ring. -/
def cycleDist (m : Molecule) (u v : ℕ) : Option ℕ :=
  (List.range (m.nAtoms + 1)).find?
    (fun k => (reachedAvoiding m u v u k).contains v)

/-- Whether applying the mapping to the first molecule breaks a ring: some
ring bond of `m0` has an endpoint with no image, or its image is not a
bond of `m1`. -/
def breaksRing (m0 m1 : Molecule) (mapping : List (ℕ × ℕ)) : Bool :=
  m0.bonds.any (fun b =>
    ringEdge m0 b.i b.j &&
    (match List.lookup b.i mapping, List.lookup b.j mapping with
     | some i1, some j1 => !(adjacent m1.bonds i1 j1)
     | _, _ => true))

/-- Whether the mapping changes the size of a ring: some ring bond of `m0`
maps onto a ring bond of `m1` whose smallest ring has a different size. -/
def changesRingSize (m0 m1 : Molecule) (mapping : List (ℕ × ℕ)) : Bool :=
  m0.bonds.any (fun b =>
    match List.lookup b.i mapping, List.lookup b.j mapping with
    | some i1, some j1 =>
      ringEdge m0 b.i b.j && ringEdge m1 i1 j1 &&
      decide (cycleDist m0 b.i b.j ≠ cycleDist m1 i1 j1)
    | _, _ => false)

/-! ### merge -/

/-- Replace an atom by its dummy counterpart: dummy element and zeroed
interaction parameters (mass and position are kept). -/
def dummify (a : Atom) : Atom := { a with elem := .dummy, charge := 0, eps := 0 }

/-- Whether an index of the second molecule is hit by the mapping. -/
def mappedTo (mapping : List (ℕ × ℕ)) (j : ℕ) : Bool :=
  mapping.any (fun kv => kv.2 == j)

/-- The indices of the second molecule missed by the mapping, ascending. -/
def unmappedIdx (n1 : ℕ) (mapping : List (ℕ × ℕ)) : List ℕ :=
  (List.range n1).filter (fun j => !(mappedTo mapping j))

/-- Position of the first occurrence of `j` in a list of indices. -/
def idxOfNat (j : ℕ) : List ℕ → ℕ
  | [] => 0
  | a :: t => if a = j then 0 else idxOfNat j t + 1

/-- The lambda = 1 parameters of merged-molecule slot `i < n0`: the mapped
atom of `m1`, or the dummy version of the `m0` atom when unmapped. -/
def state1Atom (m0 m1 : Molecule) (mapping : List (ℕ × ℕ)) (i : ℕ) : Atom :=
  match List.lookup i mapping with
  | some j => atomAt m1 j
  | none => dummify (atomAt m0 i)

/-- The lambda = 0 atom parameters of the merged molecule: the atoms of
`m0`, followed by dummy copies of the unmapped atoms of `m1`. -/
def mergedAtoms0 (m0 m1 : Molecule) (mapping : List (ℕ × ℕ)) : List Atom :=
  m0.atoms ++ (unmappedIdx m1.nAtoms mapping).map (fun j => dummify (atomAt m1 j))

/-- The lambda = 1 atom parameters of the merged molecule, slot-aligned
with `mergedAtoms0`. -/
def mergedAtoms1 (m0 m1 : Molecule) (mapping : List (ℕ × ℕ)) : List Atom :=
  (List.range m0.nAtoms).map (state1Atom m0 m1 mapping) ++
    (unmappedIdx m1.nAtoms mapping).map (atomAt m1)

/-- The merged-molecule slot holding the atom that molecule `m1` indexes
by `j`. -/
def slotOf (m0 m1 : Molecule) (mapping : List (ℕ × ℕ)) (j : ℕ) : ℕ :=
  match (mapping.find? (fun kv => kv.2 == j)).map Prod.fst with
  | some i => i
  | none => m0.nAtoms + idxOfNat j (unmappedIdx m1.nAtoms mapping)

/-- Re-index a bond of `m1` into merged-molecule slots. -/
def remapBond (m0 m1 : Molecule) (mapping : List (ℕ × ℕ)) (b : BondT) : BondT :=
  { b with i := slotOf m0 m1 mapping b.i, j := slotOf m0 m1 mapping b.j }

/-- A merged dual-topology molecule: the two slot-aligned end-state
parameter sets (suffix 0 and suffix 1 properties) and the end-state bond
terms. -/
structure Merged where
  atoms0 : List Atom
  atoms1 : List Atom
  bonds0 : List BondT
  bonds1 : List BondT
  hlen : atoms0.length = atoms1.length

/-- The dual-topology object built from two molecules and a mapping. -/
def mergeRaw (m0 m1 : Molecule) (mapping : List (ℕ × ℕ)) : Merged :=
  { atoms0 := mergedAtoms0 m0 m1 mapping,
    atoms1 := mergedAtoms1 m0 m1 mapping,
    bonds0 := m0.bonds,
    bonds1 := m1.bonds.map (remapBond m0 m1 mapping),
    hlen := by simp [mergedAtoms0, mergedAtoms1, Molecule.nAtoms] }

/-- Modelled from the spec: `BSS.Align.merge` is not under `src/` (only its
tests are).  Per the spec it produces a dual-topology object whose
per-end-state energies match the unmerged molecules, and ring-topology
changes require an explicit opt-in flag or raise a structural
incompatibility error (`IncompatibleError`). -/
def merge (m0 m1 : Molecule) (mapping : List (ℕ × ℕ))
    (allow_ring_breaking allow_ring_size_change : Bool) :
    Except PyError Merged :=
  if breaksRing m0 m1 mapping && !allow_ring_breaking then
    .error (.incompatibleError "merge would break a ring")
  else if changesRingSize m0 m1 mapping && !allow_ring_size_change then
    .error (.incompatibleError "merge would change the size of a ring")
  else .ok (mergeRaw m0 m1 mapping)

/-! ### Hydrogen mass repartitioning -/

/-- Element at an index of an atom list (`dummy` out of range). -/
def elemAtIdx (l : List Atom) (i : ℕ) : Elem :=
  ((l[i]?).map Atom.elem).getD Elem.dummy

/-- Mass at an index of an atom list (zero out of range). -/
def massAtIdx (l : List Atom) (i : ℕ) : ℚ :=
  ((l[i]?).map Atom.mass).getD 0

/-- Add `d` to the mass of the atom at index `i`. -/
def adjustMass (l : List Atom) (i : ℕ) (d : ℚ) : List Atom :=
  match l[i]? with
  | some a => l.set i { a with mass := a.mass + d }
  | none => l

/-- One repartitioning transfer: when bond `b` joins a non-dummy heavy
atom `b.i` to a non-dummy hydrogen `b.j` (both in range), move twice the
hydrogen mass from the heavy atom onto the hydrogen. -/
def hmrStep (l : List Atom) (b : BondT) : List Atom :=
  if b.i ≠ b.j ∧ b.i < l.length ∧ b.j < l.length ∧
      elemAtIdx l b.i ≠ Elem.dummy ∧ elemAtIdx l b.i ≠ Elem.H ∧
      elemAtIdx l b.j = Elem.H then
    adjustMass (adjustMass l b.j (2 * massAtIdx l b.j)) b.i (-(2 * massAtIdx l b.j))
  else l

/-- Repartition the masses of one end state along its bond terms. -/
def repartitionEndState (l : List Atom) (bonds : List BondT) : List Atom :=
  bonds.foldl hmrStep l

/-- Synchronise the lambda = 0 mass of a slot that is a dummy at
lambda = 0 with the repartitioned lambda = 1 mass. -/
def syncMass0 (x y : Atom) : Atom :=
  if x.elem = Elem.dummy then { x with mass := y.mass } else x

/-- Synchronise the lambda = 1 mass of a slot that is a dummy at
lambda = 1 (but physical at lambda = 0) with the repartitioned
lambda = 0 mass. -/
def syncMass1 (x y : Atom) : Atom :=
  if x.elem ≠ Elem.dummy ∧ y.elem = Elem.dummy then { y with mass := x.mass } else y

/-- Modelled from the spec: `repartitionHydrogenMass` is not under `src/`
(only its tests are).  Per the spec it redistributes mass from heavy atoms
to their bonded hydrogens within each end state, conserving the total
non-dummy mass of each end state, and leaves every atom that is a dummy in
one end state with identical mass in both end states: each end state is
repartitioned along its own bonds and the dummy slots then take their mass
from the physical end state. -/
def repartitionHydrogenMass (M : Merged) : Merged :=
  let r0 := repartitionEndState M.atoms0 M.bonds0
  let r1 := repartitionEndState M.atoms1 M.bonds1
  { atoms0 := List.zipWith syncMass0 r0 r1,
    atoms1 := List.zipWith syncMass1 r0 r1,
    bonds0 := M.bonds0,
    bonds1 := M.bonds1,
    hlen := by simp [List.length_zipWith] }

/-- Total mass carried by the non-dummy atoms of one end state. -/
def nonDummyMassSum (l : List Atom) : ℚ :=
  (l.map (fun a => if a.elem = Elem.dummy then 0 else a.mass)).sum

/-! ### Well-formedness -/

/-- A physical molecule: no dummy elements, bond indices in range. -/
def wfMolecule (m : Molecule) : Prop :=
  (∀ a ∈ m.atoms, a.elem ≠ Elem.dummy) ∧
  (∀ b ∈ m.bonds, b.i < m.nAtoms ∧ b.j < m.nAtoms)

/-- A well-formed atom mapping: injective in both coordinates (it is a
Python dict with distinct values) and within both molecules' ranges. -/
def wfMapping (m0 m1 : Molecule) (mapping : List (ℕ × ℕ)) : Prop :=
  (mapping.map Prod.fst).Nodup ∧ (mapping.map Prod.snd).Nodup ∧
  ∀ kv ∈ mapping, kv.1 < m0.nAtoms ∧ kv.2 < m1.nAtoms

/-- Whether an atom is physical (not a dummy). -/
def realAtom (a : Atom) : Bool := a.elem != Elem.dummy

/-! ### Concrete example inputs -/

/-- A hydrogen atom at a position. -/
def atomH (x y z : ℚ) : Atom :=
  { elem := .H, charge := 1, eps := 1, mass := 1, pos := (x, y, z) }

/-- A carbon atom at a position. -/
def atomC (x y z : ℚ) : Atom :=
  { elem := .C, charge := -1, eps := 2, mass := 12, pos := (x, y, z) }

/-- A six-atom molecule (for the pre-match examples). -/
def mol6 : Molecule :=
  { atoms := List.replicate 6 (atomC 0 0 0), bonds := [] }

/-- A ten-atom molecule (for the pre-match examples). -/
def mol10 : Molecule :=
  { atoms := List.replicate 10 (atomC 0 0 0), bonds := [] }

/-- A two-atom molecule with one bond (one end of a merge example). -/
def diatomic : Molecule :=
  { atoms := [atomH 0 0 0, atomC 1 0 0], bonds := [⟨0, 1, 1, 1⟩] }

/-- A three-membered carbon ring. -/
def ringMol : Molecule :=
  { atoms := [atomC 0 0 0, atomC 1 0 0, atomC 0 1 0],
    bonds := [⟨0, 1, 1, 1⟩, ⟨1, 2, 1, 1⟩, ⟨0, 2, 1, 1⟩] }

/-- A three-atom carbon chain (the ring of `ringMol`, broken open). -/
def chainMol : Molecule :=
  { atoms := [atomC 0 0 0, atomC 1 0 0, atomC 0 1 0],
    bonds := [⟨0, 1, 1, 1⟩, ⟨1, 2, 1, 1⟩] }

/-- The identity mapping on three atoms. -/
def mapId3 : List (ℕ × ℕ) := [(0, 0), (1, 1), (2, 2)]

/-- A two-pair mapping, for the merge example. -/
def mapId2 : List (ℕ × ℕ) := [(0, 0), (1, 1)]

/-- A merged dual-topology example with a dummy slot at index 2 of the
lambda = 0 end state and a heavy-hydrogen bond to repartition. -/
def mergedExample : Merged :=
  { atoms0 := [atomH 0 0 0, atomC 1 0 0, dummify (atomH 2 0 0)],
    atoms1 := [atomH 0 0 0, atomC 1 0 0, atomH 2 0 0],
    bonds0 := [⟨1, 0, 1, 1⟩],
    bonds1 := [⟨1, 0, 1, 1⟩, ⟨1, 2, 1, 1⟩],
    hlen := rfl }

/-! # Theorems -/

/-! ## List helpers -/

theorem takeWhile_append_all {α : Type} (p : α → Bool) {l1 : List α} (l2 : List α)
    (h : ∀ a ∈ l1, p a = true) :
    (l1 ++ l2).takeWhile p = l1 ++ l2.takeWhile p := by
  induction l1 with
  | nil => simp
  | cons a t ih =>
    rw [List.cons_append, List.takeWhile_cons, if_pos (h a (List.mem_cons_self a t)),
      ih fun b hb => h b (List.mem_cons_of_mem _ hb), List.cons_append]

theorem dropWhile_append_all {α : Type} (p : α → Bool) {l1 : List α} (l2 : List α)
    (h : ∀ a ∈ l1, p a = true) :
    (l1 ++ l2).dropWhile p = l2.dropWhile p := by
  induction l1 with
  | nil => simp
  | cons a t ih =>
    rw [List.cons_append, List.dropWhile_cons, if_pos (h a (List.mem_cons_self a t)),
      ih fun b hb => h b (List.mem_cons_of_mem _ hb)]

theorem lookup_eq_some_of_nodup {l : List (ℕ × ℕ)} {k v : ℕ}
    (hmem : (k, v) ∈ l) (hnd : (l.map Prod.fst).Nodup) :
    l.lookup k = some v := by
  induction l with
  | nil => simp at hmem
  | cons p t ih =>
    obtain ⟨a, b⟩ := p
    rw [List.map_cons, List.nodup_cons] at hnd
    rcases List.mem_cons.1 hmem with h | h
    · obtain ⟨rfl, rfl⟩ : k = a ∧ v = b := by simpa using h
      simp [List.lookup_cons]
    · have hne : k ≠ a := by
        rintro rfl
        exact hnd.1 (List.mem_map.2 ⟨(k, v), h, rfl⟩)
      have hbeq : (k == a) = false := beq_eq_false_iff_ne.2 hne
      simp only [List.lookup_cons, hbeq]
      exact ih h hnd.2

theorem lookup_append_some {l1 l2 : List (ℕ × ℕ)} {k v : ℕ}
    (h : l1.lookup k = some v) : (l1 ++ l2).lookup k = some v := by
  induction l1 with
  | nil => simp [List.lookup] at h
  | cons p t ih =>
    obtain ⟨a, b⟩ := p
    cases hk : (k == a) with
    | true => simpa [List.lookup_cons, hk] using h
    | false =>
      simp only [List.lookup_cons, hk] at h
      simpa [List.lookup_cons, hk] using ih h

theorem mem_of_lookup_eq_some {l : List (ℕ × ℕ)} {k v : ℕ}
    (h : l.lookup k = some v) : (k, v) ∈ l := by
  induction l with
  | nil => simp [List.lookup] at h
  | cons p t ih =>
    obtain ⟨a, b⟩ := p
    cases hk : (k == a) with
    | true =>
      simp only [List.lookup_cons, hk, Option.some.injEq] at h
      obtain rfl := beq_iff_eq.1 hk
      exact h ▸ List.mem_cons_self _ _
    | false =>
      simp only [List.lookup_cons, hk] at h
      exact List.mem_cons_of_mem _ (ih h)

/-! ## PSF post-processing -/

/-- C7: the PSF post-processing does not guarantee a non-bonded exclusion
record.  On a written file whose first line carries an acceptor record and
which contains no `NNB` section, the append condition for the `NNB` record
(line 147 of the source reuses `has_acceptors`) is false, so the processed
file still contains no `NNB` section, only the appended donor record. -/
theorem psfPostprocess_can_omit_nnb :
    psfPostprocess ["       1 !NACC: acceptors"]
      = ["       1 !NACC: acceptors", donorRecord] ∧
    (psfPostprocess ["       1 !NACC: acceptors"]).all
      (fun l => !(strHas l "NNB")) = true := by
  constructor
  · rfl
  · decide

/-! ## Constructor file checks -/

/-- C8: the constructor does fail before any input file is written when the
caller supplies an executable path or a custom configuration file, but with
`NameError` (both existence checks read the unbound name `path`; the module
imports `os`, not `os.path`) instead of the claimed `IOError` — and it does
so whether or not the supplied path exists. -/
theorem init_file_checks_raise_name_error :
    namdProcess_init ⟨true⟩ (some "/opt/namd2") false "namd" "/tmp/wd"
      = .error (.nameError "path") ∧
    namdProcess_init ⟨true⟩ none true "namd" "/tmp/wd"
      = .error (.nameError "path") :=
  ⟨rfl, rfl⟩

/-! ## Working directory bracketing -/

/-- C10: a completed `start` leaves the calling process's working directory
exactly as it was — it is saved, switched to the work directory for the
launch, and restored — and its only other effect is appending the engine
launch (configuration, stdout and stderr files) to the process log. -/
theorem start_restores_cwd (st : NamdProcessState) (os : OSState) :
    (namdProcess_start st os).cwd = os.cwd ∧
    (namdProcess_start st os).launched
      = os.launched
        ++ [(st.exe, st.name ++ ".namd", st.name ++ ".out", st.name ++ ".err")] :=
  ⟨rfl, rfl⟩

/-! ## Configuration generation -/

/-- C6: generating the configuration for an equilibration protocol (start
0 K, end 300 K, runtime 0.02 ns) raises `NameError` — the backbone-restraint
check at line 246 reads the unbound name `protocol` — before the step count
or the `run` line is ever computed, so no configuration with a run step
count is produced at all. -/
theorem equilibration_config_raises_name_error :
    generate_config_file eqProtocolExample "namd" false (10, 10, 10) (0, 0, 0)
      = .error (.nameError "protocol") := rfl

theorem configHeader_no_reassign (name : String) (hasVel : Bool)
    (box origin : ℚ × ℚ × ℚ) :
    (configHeader name hasVel box origin).any ConfigEntry.isReassign = false := by
  cases hasVel <;> simp [configHeader, ConfigEntry.isReassign]

/-- With the identifier slips of the equilibration branch repaired, the
generated configuration ends with a `run` entry holding
`ceil(runtime / 0.002)` steps and contains a temperature-reassignment block
exactly when the start and end temperatures differ — the behaviour the
specification describes. -/
theorem fixed_equilibration_run_and_reassign (p : Protocol) (name : String)
    (hasVel : Bool) (box origin : ℚ × ℚ × ℚ) (hp : p.ptype = .equilibration) :
    ∃ es, generate_config_file_fixed p name hasVel box origin = .ok es ∧
      es.getLast? = some (.runSteps ⌈p.runtime / (2 / 1000 : ℚ)⌉) ∧
      es.any ConfigEntry.isReassign = !p.isConstantTemp := by
  unfold generate_config_file_fixed
  rw [hp]
  refine ⟨_, rfl, ?_, ?_⟩
  · cases hct : p.isConstantTemp <;> simp [hct, List.getLast?_concat]
  · cases hct : p.isConstantTemp <;>
      simp [List.any_append, configHeader_no_reassign, ConfigEntry.isReassign, hct]

/-! ## Velocity file naming (os.path.splitext) -/

theorem splitextRootRev_shape (N W : List Char)
    (h1 : ∀ c ∈ N, (c != '/') = true) (h2 : N.any (fun c => c != '.') = true) :
    splitextRootRev ('b' :: 'd' :: 'p' :: '.' :: (N ++ '/' :: W)) = N ++ '/' :: W := by
  have hbase : ('b' :: 'd' :: 'p' :: '.' :: (N ++ '/' :: W)).takeWhile (fun c => c != '/')
      = 'b' :: 'd' :: 'p' :: '.' :: N := by
    rw [List.takeWhile_cons, if_pos (by decide), List.takeWhile_cons, if_pos (by decide),
      List.takeWhile_cons, if_pos (by decide), List.takeWhile_cons, if_pos (by decide),
      takeWhile_append_all _ _ h1, List.takeWhile_cons, if_neg (by decide),
      List.append_nil]
  have hpre : ('b' :: 'd' :: 'p' :: '.' :: N).takeWhile (fun c => c != '.')
      = ['b', 'd', 'p'] := by
    rw [List.takeWhile_cons, if_pos (by decide), List.takeWhile_cons, if_pos (by decide),
      List.takeWhile_cons, if_pos (by decide), List.takeWhile_cons, if_neg (by decide)]
  have hdrop : ('b' :: 'd' :: 'p' :: '.' :: N).dropWhile (fun c => c != '.')
      = '.' :: N := by
    rw [List.dropWhile_cons, if_pos (by decide), List.dropWhile_cons, if_pos (by decide),
      List.dropWhile_cons, if_pos (by decide), List.dropWhile_cons, if_neg (by decide)]
  unfold splitextRootRev
  rw [hbase, hdrop, hpre]
  simp [h2]

theorem splitext_root_pdb (wd name : String)
    (h1 : ∀ c ∈ name.data, c ≠ '/') (h2 : ∃ c ∈ name.data, c ≠ '.') :
    os_path_splitext_root (wd ++ "/" ++ name ++ ".pdb") = wd ++ "/" ++ name := by
  have e1 : "/".data = ['/'] := rfl
  have e2 : ".pdb".data = ['.', 'p', 'd', 'b'] := rfl
  apply String.ext
  have hd : (wd ++ "/" ++ name ++ ".pdb").data.reverse
      = 'b' :: 'd' :: 'p' :: '.' :: (name.data.reverse ++ '/' :: wd.data.reverse) := by
    simp [String.data_append, e1, e2, List.reverse_append]
  have h1r : ∀ c ∈ name.data.reverse, (c != '/') = true := fun c hc =>
    bne_iff_ne.2 (h1 c (List.mem_reverse.1 hc))
  have h2r : (name.data.reverse).any (fun c => c != '.') = true := by
    obtain ⟨c, hc, hcne⟩ := h2
    exact List.any_eq_true.2 ⟨c, List.mem_reverse.2 hc, bne_iff_ne.2 hcne⟩
  show (splitextRootRev (wd ++ "/" ++ name ++ ".pdb").data.reverse).reverse = _
  rw [hd, splitextRootRev_shape _ _ h1r h2r]
  simp [String.data_append, e1, List.reverse_append]

/-- C9: for a process that constructs successfully (no user-supplied
executable, no custom configuration), the input file list is exactly the
work-directory-qualified `name.namd`, `name.psf`, `name.pdb`, `name.params`,
with `name.vel` appended exactly when every atom of the system has a
velocity property.  The name must contain a character other than `.` and no
`/`, otherwise `os.path.splitext` would treat the basename differently. -/
theorem init_input_files_spec (sys : MolSystem) (name wd : String)
    (h1 : ∀ c ∈ name.data, c ≠ '/') (h2 : ∃ c ∈ name.data, c ≠ '.') :
    namdProcess_init sys none false name wd =
      .ok { exe := "/usr/bin/namd2", name := name, work_dir := wd,
            namd_file := wd ++ "/" ++ name ++ ".namd",
            psf_file := wd ++ "/" ++ name ++ ".psf",
            pdb_file := wd ++ "/" ++ name ++ ".pdb",
            param_file := wd ++ "/" ++ name ++ ".params",
            velocity_file := if sys.allAtomsHaveVelocity
              then some (wd ++ "/" ++ name ++ ".vel") else none,
            input_files :=
              [wd ++ "/" ++ name ++ ".namd", wd ++ "/" ++ name ++ ".psf",
               wd ++ "/" ++ name ++ ".pdb", wd ++ "/" ++ name ++ ".params"] ++
              (if sys.allAtomsHaveVelocity then [wd ++ "/" ++ name ++ ".vel"]
               else []) } := by
  have hroot := splitext_root_pdb wd name h1 h2
  simp only [namdProcess_init, Bool.false_eq_true, if_false, hroot]
  cases h : sys.allAtomsHaveVelocity <;> simp

/-- Closed instance of the input-file list theorem at the default process
name and a concrete work directory, with all hypotheses discharged. -/
theorem init_input_files_spec_example :
    (∀ c ∈ "namd".data, c ≠ '/') ∧ (∃ c ∈ "namd".data, c ≠ '.') ∧
    namdProcess_init ⟨true⟩ none false "namd" "/home/user/wd" =
      .ok { exe := "/usr/bin/namd2", name := "namd", work_dir := "/home/user/wd",
            namd_file := "/home/user/wd" ++ "/" ++ "namd" ++ ".namd",
            psf_file := "/home/user/wd" ++ "/" ++ "namd" ++ ".psf",
            pdb_file := "/home/user/wd" ++ "/" ++ "namd" ++ ".pdb",
            param_file := "/home/user/wd" ++ "/" ++ "namd" ++ ".params",
            velocity_file := if (⟨true⟩ : MolSystem).allAtomsHaveVelocity
              then some ("/home/user/wd" ++ "/" ++ "namd" ++ ".vel") else none,
            input_files :=
              ["/home/user/wd" ++ "/" ++ "namd" ++ ".namd",
               "/home/user/wd" ++ "/" ++ "namd" ++ ".psf",
               "/home/user/wd" ++ "/" ++ "namd" ++ ".pdb",
               "/home/user/wd" ++ "/" ++ "namd" ++ ".params"] ++
              (if (⟨true⟩ : MolSystem).allAtomsHaveVelocity
               then ["/home/user/wd" ++ "/" ++ "namd" ++ ".vel"] else []) } :=
  ⟨by decide, by decide,
    init_input_files_spec ⟨true⟩ "namd" "/home/user/wd" (by decide) (by decide)⟩

/-! ## matchAtoms -/

/-- C1: for any two molecules and any valid pre-match (a Python dict, so
with distinct keys, every pair within both molecules' atom ranges),
`matchAtoms` returns a mapping containing every pre-match pair unchanged. -/
theorem matchAtoms_preserves_prematch (m0 m1 : Molecule) (prematch : List (ℤ × ℤ))
    (hvalid : ∀ kv ∈ prematch, validPrematchPair m0.nAtoms m1.nAtoms kv = true)
    (hkeys : (prematch.map Prod.fst).Nodup) :
    ∃ mapping, matchAtoms m0 m1 prematch = .ok mapping ∧
      ∀ kv ∈ prematch, mapping.lookup kv.1.toNat = some kv.2.toNat := by
  have hall : prematch.all (validPrematchPair m0.nAtoms m1.nAtoms) = true :=
    List.all_eq_true.2 hvalid
  refine ⟨_, by rw [matchAtoms, if_pos hall], ?_⟩
  intro kv hkv
  have hmem : (kv.1.toNat, kv.2.toNat)
      ∈ prematch.map (fun kv => (kv.1.toNat, kv.2.toNat)) :=
    List.mem_map.2 ⟨kv, hkv, rfl⟩
  have hnn : ∀ x ∈ prematch.map Prod.fst, 0 ≤ x := by
    intro x hx
    obtain ⟨p, hp, rfl⟩ := List.mem_map.1 hx
    have hv := hvalid p hp
    simp only [validPrematchPair, Bool.and_eq_true, decide_eq_true_eq] at hv
    exact hv.1.1.1
  have hpk : ((prematch.map (fun kv => (kv.1.toNat, kv.2.toNat))).map Prod.fst).Nodup := by
    rw [List.map_map]
    have he : (Prod.fst ∘ fun kv : ℤ × ℤ => (kv.1.toNat, kv.2.toNat))
        = (Int.toNat ∘ Prod.fst) := rfl
    rw [he, ← List.map_map]
    refine List.Nodup.map_on ?_ hkeys
    intro x hx y hy hxy
    have hx0 := hnn x hx
    have hy0 := hnn y hy
    omega
  simp only [extendMapping]
  exact lookup_append_some (lookup_eq_some_of_nodup hmem hpk)

/-- Closed instance of the pre-match preservation theorem: pre-match
`3 mapsto 1` between a six-atom and a ten-atom molecule. -/
theorem matchAtoms_preserves_prematch_example :
    (∀ kv ∈ [((3 : ℤ), (1 : ℤ))],
      validPrematchPair mol6.nAtoms mol10.nAtoms kv = true) ∧
    (([((3 : ℤ), (1 : ℤ))].map Prod.fst).Nodup) ∧
    ∃ mapping, matchAtoms mol6 mol10 [((3 : ℤ), (1 : ℤ))] = .ok mapping ∧
      ∀ kv ∈ [((3 : ℤ), (1 : ℤ))], mapping.lookup kv.1.toNat = some kv.2.toNat :=
  ⟨by decide, by decide,
    matchAtoms_preserves_prematch mol6 mol10 _ (by decide) (by decide)⟩

/-- C2: a pre-match with a pair outside either molecule's valid atom range
makes `matchAtoms` fail with `ValueError` instead of returning a mapping. -/
theorem matchAtoms_invalid_prematch_raises (m0 m1 : Molecule)
    (prematch : List (ℤ × ℤ))
    (h : ∃ kv ∈ prematch, validPrematchPair m0.nAtoms m1.nAtoms kv = false) :
    matchAtoms m0 m1 prematch = .error (.valueError "invalid prematch") := by
  rw [matchAtoms, if_neg]
  intro hall
  obtain ⟨kv, hkv, hf⟩ := h
  have hkvt := List.all_eq_true.1 hall kv hkv
  rw [hf] at hkvt
  exact Bool.false_ne_true hkvt

/-- Closed instance of the invalid-pre-match theorem: the negative index
`-1 mapsto 1` is rejected. -/
theorem matchAtoms_invalid_prematch_example :
    (∃ kv ∈ [((-1 : ℤ), (1 : ℤ))],
      validPrematchPair mol6.nAtoms mol10.nAtoms kv = false) ∧
    matchAtoms mol6 mol10 [((-1 : ℤ), (1 : ℤ))]
      = .error (.valueError "invalid prematch") :=
  ⟨by decide, matchAtoms_invalid_prematch_raises mol6 mol10 _ (by decide)⟩

/-! ## merge: ring compatibility flags -/

/-- C4: when a merge would break a ring or change a ring's size, `merge`
without the override flags fails with `IncompatibleError`, and the same
merge with the override flags set succeeds. -/
theorem merge_ring_flags (m0 m1 : Molecule) (mapping : List (ℕ × ℕ))
    (h : breaksRing m0 m1 mapping = true ∨ changesRingSize m0 m1 mapping = true) :
    (∃ msg, merge m0 m1 mapping false false = .error (.incompatibleError msg)) ∧
    merge m0 m1 mapping true true = .ok (mergeRaw m0 m1 mapping) := by
  constructor
  · cases hb : breaksRing m0 m1 mapping
    · have hc : changesRingSize m0 m1 mapping = true := by
        rcases h with h | h
        · rw [hb] at h
          exact absurd h (by simp)
        · exact h
      exact ⟨_, by rw [merge, if_neg (by simp [hb]), if_pos (by simp [hc])]⟩
    · exact ⟨_, by rw [merge, if_pos (by simp [hb])]⟩
  · rw [merge, if_neg (by simp), if_neg (by simp)]

/-- Closed instance of the ring-flag theorem: mapping a three-membered
carbon ring onto the same atoms with the ring bond opened. -/
theorem merge_ring_flags_example :
    (breaksRing ringMol chainMol mapId3 = true ∨
     changesRingSize ringMol chainMol mapId3 = true) ∧
    (∃ msg, merge ringMol chainMol mapId3 false false
      = .error (.incompatibleError msg)) ∧
    merge ringMol chainMol mapId3 true true = .ok (mergeRaw ringMol chainMol mapId3) :=
  ⟨Or.inl (by decide),
    (merge_ring_flags ringMol chainMol mapId3 (Or.inl (by decide))).1,
    (merge_ring_flags ringMol chainMol mapId3 (Or.inl (by decide))).2⟩

/-! ## Hydrogen mass repartitioning -/

theorem nonDummyMassSum_cons (a : Atom) (t : List Atom) :
    nonDummyMassSum (a :: t)
      = (if a.elem = Elem.dummy then 0 else a.mass) + nonDummyMassSum t := by
  simp [nonDummyMassSum]

theorem elemAtIdx_cons_succ (a : Atom) (l : List Atom) (n : ℕ) :
    elemAtIdx (a :: l) (n + 1) = elemAtIdx l n := by
  rw [elemAtIdx, List.getElem?_cons_succ, elemAtIdx]

theorem massAtIdx_cons_succ (a : Atom) (l : List Atom) (n : ℕ) :
    massAtIdx (a :: l) (n + 1) = massAtIdx l n := by
  rw [massAtIdx, List.getElem?_cons_succ, massAtIdx]

theorem elemAtIdx_eq_map (l : List Atom) (k : ℕ) :
    elemAtIdx l k = ((l.map Atom.elem)[k]?).getD Elem.dummy := by
  rw [elemAtIdx, List.getElem?_map]

theorem set_self_of_getElem? {α : Type} {l : List α} {i : ℕ} {a : α}
    (h : l[i]? = some a) : l.set i a = l := by
  induction l generalizing i with
  | nil => simp at h
  | cons x t ih =>
    cases i with
    | zero =>
      obtain rfl : x = a := by simpa using h
      rfl
    | succ n =>
      rw [List.getElem?_cons_succ] at h
      rw [List.set_cons_succ, ih h]

theorem adjustMass_map_elem (l : List Atom) (i : ℕ) (d : ℚ) :
    (adjustMass l i d).map Atom.elem = l.map Atom.elem := by
  unfold adjustMass
  cases h : l[i]? with
  | none => rfl
  | some a =>
    rw [List.map_set]
    exact set_self_of_getElem? (by rw [List.getElem?_map, h]; rfl)

theorem adjustMass_cons_zero (x : Atom) (t : List Atom) (d : ℚ) :
    adjustMass (x :: t) 0 d = { x with mass := x.mass + d } :: t := by
  simp [adjustMass]

theorem adjustMass_cons_succ (x : Atom) (t : List Atom) (n : ℕ) (d : ℚ) :
    adjustMass (x :: t) (n + 1) d = x :: adjustMass t n d := by
  unfold adjustMass
  rw [List.getElem?_cons_succ]
  cases ht : t[n]? with
  | none => rfl
  | some b => rfl

theorem nonDummyMassSum_adjust {l : List Atom} {i : ℕ} {a : Atom}
    (h : l[i]? = some a) (ha : a.elem ≠ Elem.dummy) (d : ℚ) :
    nonDummyMassSum (adjustMass l i d) = nonDummyMassSum l + d := by
  induction l generalizing i with
  | nil => simp at h
  | cons x t ih =>
    cases i with
    | zero =>
      obtain rfl : x = a := by simpa using h
      rw [adjustMass_cons_zero, nonDummyMassSum_cons, nonDummyMassSum_cons]
      show (if x.elem = Elem.dummy then 0 else x.mass + d) + nonDummyMassSum t = _
      rw [if_neg ha, if_neg ha]
      ring
    | succ n =>
      rw [List.getElem?_cons_succ] at h
      rw [adjustMass_cons_succ, nonDummyMassSum_cons, nonDummyMassSum_cons, ih h]
      ring

theorem getElem?_adjustMass_ne (l : List Atom) (i k : ℕ) (d : ℚ) (hne : i ≠ k) :
    (adjustMass l i d)[k]? = l[k]? := by
  unfold adjustMass
  cases h : l[i]? with
  | none => rfl
  | some a => exact List.getElem?_set_ne hne

theorem hmrStep_map_elem (l : List Atom) (b : BondT) :
    (hmrStep l b).map Atom.elem = l.map Atom.elem := by
  unfold hmrStep
  split
  · rw [adjustMass_map_elem, adjustMass_map_elem]
  · rfl

theorem hmrStep_sum (l : List Atom) (b : BondT) :
    nonDummyMassSum (hmrStep l b) = nonDummyMassSum l := by
  unfold hmrStep
  split
  case isTrue hcond =>
    obtain ⟨hij, hilt, hjlt, hdum, hH, hjH⟩ := hcond
    have hj : l[b.j]? = some (l.get ⟨b.j, hjlt⟩) := List.getElem?_eq_getElem hjlt
    have hjelem : (l.get ⟨b.j, hjlt⟩).elem = Elem.H := by
      simp only [elemAtIdx] at hjH
      rw [hj] at hjH
      simpa using hjH
    have hi : l[b.i]? = some (l.get ⟨b.i, hilt⟩) := List.getElem?_eq_getElem hilt
    have hielem : (l.get ⟨b.i, hilt⟩).elem ≠ Elem.dummy := by
      simp only [elemAtIdx] at hdum
      rw [hi] at hdum
      simpa using hdum
    have hji : (adjustMass l b.j (2 * massAtIdx l b.j))[b.i]?
        = some (l.get ⟨b.i, hilt⟩) :=
      (getElem?_adjustMass_ne _ _ _ _ (Ne.symm hij)).trans hi
    rw [nonDummyMassSum_adjust hji hielem,
      nonDummyMassSum_adjust hj (by rw [hjelem]; exact by decide) _]
    ring
  case isFalse => rfl

theorem getElem?_hmrStep_dummy (l : List Atom) (b : BondT) (k : ℕ)
    (hk : elemAtIdx l k = Elem.dummy) : (hmrStep l b)[k]? = l[k]? := by
  unfold hmrStep
  split
  case isTrue hcond =>
    obtain ⟨hij, hilt, hjlt, hdum, hH, hjH⟩ := hcond
    have hki : b.i ≠ k := fun he => hdum (by rw [he]; exact hk)
    have hkj : b.j ≠ k := by
      intro he
      rw [he] at hjH
      rw [hk] at hjH
      exact absurd hjH (by decide)
    rw [getElem?_adjustMass_ne _ _ _ _ hki, getElem?_adjustMass_ne _ _ _ _ hkj]
  case isFalse => rfl

theorem repartition_map_elem (bonds : List BondT) (l : List Atom) :
    (repartitionEndState l bonds).map Atom.elem = l.map Atom.elem := by
  induction bonds generalizing l with
  | nil => rfl
  | cons b bs ih =>
    show (repartitionEndState (hmrStep l b) bs).map Atom.elem = _
    rw [ih, hmrStep_map_elem]

theorem repartition_sum (bonds : List BondT) (l : List Atom) :
    nonDummyMassSum (repartitionEndState l bonds) = nonDummyMassSum l := by
  induction bonds generalizing l with
  | nil => rfl
  | cons b bs ih =>
    show nonDummyMassSum (repartitionEndState (hmrStep l b) bs) = _
    rw [ih, hmrStep_sum]

theorem getElem?_repartition_dummy (bonds : List BondT) (l : List Atom) (k : ℕ)
    (hk : elemAtIdx l k = Elem.dummy) :
    (repartitionEndState l bonds)[k]? = l[k]? := by
  induction bonds generalizing l with
  | nil => rfl
  | cons b bs ih =>
    show (repartitionEndState (hmrStep l b) bs)[k]? = _
    have hk2 : elemAtIdx (hmrStep l b) k = Elem.dummy := by
      rw [elemAtIdx_eq_map, hmrStep_map_elem, ← elemAtIdx_eq_map]
      exact hk
    rw [ih _ hk2, getElem?_hmrStep_dummy _ _ _ hk]

theorem zipWith_sync0_sum (r0 r1 : List Atom) (hlen : r0.length = r1.length) :
    nonDummyMassSum (List.zipWith syncMass0 r0 r1) = nonDummyMassSum r0 := by
  induction r0 generalizing r1 with
  | nil => simp [nonDummyMassSum]
  | cons x t ih =>
    cases r1 with
    | nil => simp at hlen
    | cons y s =>
      rw [List.zipWith_cons_cons, nonDummyMassSum_cons, nonDummyMassSum_cons,
        ih s (by simpa using hlen)]
      congr 1
      by_cases hx : x.elem = Elem.dummy
      · simp [syncMass0, hx]
      · simp [syncMass0, hx]

theorem zipWith_sync1_sum (r0 r1 : List Atom) (hlen : r0.length = r1.length) :
    nonDummyMassSum (List.zipWith syncMass1 r0 r1) = nonDummyMassSum r1 := by
  induction r0 generalizing r1 with
  | nil =>
    cases r1 with
    | nil => simp [nonDummyMassSum]
    | cons y s => simp at hlen
  | cons x t ih =>
    cases r1 with
    | nil => simp at hlen
    | cons y s =>
      rw [List.zipWith_cons_cons, nonDummyMassSum_cons, nonDummyMassSum_cons,
        ih s (by simpa using hlen)]
      congr 1
      by_cases hy : y.elem = Elem.dummy
      · by_cases hx : x.elem = Elem.dummy <;> simp [syncMass1, hx, hy]
      · simp [syncMass1, hy]

theorem elemAtIdx_cons_zero (a : Atom) (l : List Atom) :
    elemAtIdx (a :: l) 0 = a.elem := by
  simp [elemAtIdx]

theorem massAtIdx_cons_zero (a : Atom) (l : List Atom) :
    massAtIdx (a :: l) 0 = a.mass := by
  simp [massAtIdx]

theorem sync_dummy_mass_eq (r0 r1 : List Atom) (i : ℕ)
    (h : elemAtIdx (List.zipWith syncMass0 r0 r1) i = Elem.dummy ∨
         elemAtIdx (List.zipWith syncMass1 r0 r1) i = Elem.dummy) :
    massAtIdx (List.zipWith syncMass0 r0 r1) i
      = massAtIdx (List.zipWith syncMass1 r0 r1) i := by
  induction r0 generalizing r1 i with
  | nil => simp [massAtIdx]
  | cons x t ih =>
    cases r1 with
    | nil => simp [massAtIdx]
    | cons y s =>
      rw [List.zipWith_cons_cons, List.zipWith_cons_cons] at h ⊢
      cases i with
      | zero =>
        rw [elemAtIdx_cons_zero, elemAtIdx_cons_zero] at h
        rw [massAtIdx_cons_zero, massAtIdx_cons_zero]
        by_cases hx : x.elem = Elem.dummy
        · simp [syncMass0, syncMass1, hx]
        · by_cases hy : y.elem = Elem.dummy
          · simp [syncMass0, syncMass1, hx, hy]
          · exfalso
            rcases h with h | h
            · rw [syncMass0, if_neg hx] at h
              exact hx h
            · rw [syncMass1, if_neg (fun hc => hy hc.2)] at h
              exact hy h
      | succ n =>
        rw [elemAtIdx_cons_succ, elemAtIdx_cons_succ] at h
        rw [massAtIdx_cons_succ, massAtIdx_cons_succ]
        exact ih s n h

/-- C5: hydrogen-mass repartitioning of a merged dual-topology molecule
conserves the summed mass of the non-dummy atoms of each end state, and
afterwards every slot that is a dummy in one end state carries the same
mass in both end states. -/
theorem repartitionHydrogenMass_invariants (M : Merged) :
    nonDummyMassSum (repartitionHydrogenMass M).atoms0 = nonDummyMassSum M.atoms0 ∧
    nonDummyMassSum (repartitionHydrogenMass M).atoms1 = nonDummyMassSum M.atoms1 ∧
    ∀ i, (elemAtIdx (repartitionHydrogenMass M).atoms0 i = Elem.dummy ∨
          elemAtIdx (repartitionHydrogenMass M).atoms1 i = Elem.dummy) →
      massAtIdx (repartitionHydrogenMass M).atoms0 i
        = massAtIdx (repartitionHydrogenMass M).atoms1 i := by
  have hlen0 : (repartitionEndState M.atoms0 M.bonds0).length = M.atoms0.length := by
    have hc := congrArg List.length (repartition_map_elem M.bonds0 M.atoms0)
    simpa using hc
  have hlen1 : (repartitionEndState M.atoms1 M.bonds1).length = M.atoms1.length := by
    have hc := congrArg List.length (repartition_map_elem M.bonds1 M.atoms1)
    simpa using hc
  have hlen : (repartitionEndState M.atoms0 M.bonds0).length
      = (repartitionEndState M.atoms1 M.bonds1).length := by
    rw [hlen0, hlen1, M.hlen]
  refine ⟨?_, ?_, ?_⟩
  · show nonDummyMassSum (List.zipWith syncMass0 _ _) = _
    rw [zipWith_sync0_sum _ _ hlen, repartition_sum]
  · show nonDummyMassSum (List.zipWith syncMass1 _ _) = _
    rw [zipWith_sync1_sum _ _ hlen, repartition_sum]
  · intro i h
    exact sync_dummy_mass_eq _ _ i h

/-- Closed instance of the repartitioning invariants on a concrete merged
molecule, at the dummy slot of its lambda = 0 end state. -/
theorem repartitionHydrogenMass_invariants_example :
    nonDummyMassSum (repartitionHydrogenMass mergedExample).atoms0
      = nonDummyMassSum mergedExample.atoms0 ∧
    (elemAtIdx (repartitionHydrogenMass mergedExample).atoms0 2 = Elem.dummy ∨
     elemAtIdx (repartitionHydrogenMass mergedExample).atoms1 2 = Elem.dummy) ∧
    massAtIdx (repartitionHydrogenMass mergedExample).atoms0 2
      = massAtIdx (repartitionHydrogenMass mergedExample).atoms1 2 :=
  ⟨(repartitionHydrogenMass_invariants mergedExample).1,
    Or.inl (by decide),
    (repartitionHydrogenMass_invariants mergedExample).2.2 2 (Or.inl (by decide))⟩

/-! ## merge: end-state energies -/

theorem pairSum_cons (f : Atom → Atom → ℚ) (a : Atom) (t : List Atom) :
    pairSum f (a :: t) = (t.map (f a)).sum + pairSum f t := rfl

theorem sqDist_comm (p q : ℚ × ℚ × ℚ) : sqDist p q = sqDist q p := by
  unfold sqDist
  ring

theorem invSq_comm (p q : ℚ × ℚ × ℚ) : invSq p q = invSq q p := by
  unfold invSq
  rw [sqDist_comm]

theorem cljPair_comm (a b : Atom) : cljPair a b = cljPair b a := by
  unfold cljPair
  rw [invSq_comm]
  ring

theorem cljPair_dummify_left (a b : Atom) : cljPair (dummify a) b = 0 := by
  simp [cljPair, dummify]

theorem cljPair_dummify_right (a b : Atom) : cljPair a (dummify b) = 0 := by
  simp [cljPair, dummify]

theorem pairSum_zero (f : Atom → Atom → ℚ) (l : List Atom)
    (h : ∀ a ∈ l, ∀ b, f a b = 0) : pairSum f l = 0 := by
  induction l with
  | nil => rfl
  | cons a t ih =>
    rw [pairSum_cons,
      List.sum_eq_zero (by
        intro x hx
        obtain ⟨b, hb, rfl⟩ := List.mem_map.1 hx
        exact h a (List.mem_cons_self _ _) b),
      ih fun c hc b => h c (List.mem_cons_of_mem _ hc) b, add_zero]

theorem pairSum_append_zero (f : Atom → Atom → ℚ) (l extra : List Atom)
    (hz : ∀ a ∈ extra, (∀ b, f a b = 0) ∧ (∀ b, f b a = 0)) :
    pairSum f (l ++ extra) = pairSum f l := by
  induction l with
  | nil =>
    rw [List.nil_append, pairSum_zero f extra fun a ha b => (hz a ha).1 b]
    rfl
  | cons a t ih =>
    have hextra : ((extra.map (f a))).sum = 0 :=
      List.sum_eq_zero (by
        intro x hx
        obtain ⟨b, hb, rfl⟩ := List.mem_map.1 hx
        exact (hz b hb).2 a)
    rw [List.cons_append, pairSum_cons, pairSum_cons, ih, List.map_append,
      List.sum_append, hextra, add_zero]

theorem map_sum_filter_zero (g : Atom → ℚ) (t : List Atom) (p : Atom → Bool)
    (h : ∀ b ∈ t, p b = false → g b = 0) :
    (t.map g).sum = ((t.filter p).map g).sum := by
  induction t with
  | nil => rfl
  | cons b tt ih =>
    have iht := ih fun c hc => h c (List.mem_cons_of_mem _ hc)
    cases hp : p b with
    | true =>
      rw [List.map_cons, List.sum_cons, List.filter_cons_of_pos hp, List.map_cons,
        List.sum_cons, iht]
    | false =>
      rw [List.map_cons, List.sum_cons, h b (List.mem_cons_self _ _) hp, zero_add,
        List.filter_cons_of_neg (by simp [hp]), iht]

theorem pairSum_filter (f : Atom → Atom → ℚ) (p : Atom → Bool) (l : List Atom)
    (hz : ∀ a ∈ l, p a = false → (∀ b, f a b = 0) ∧ (∀ b, f b a = 0)) :
    pairSum f l = pairSum f (l.filter p) := by
  induction l with
  | nil => rfl
  | cons a t ih =>
    have iht := ih fun c hc hpc => hz c (List.mem_cons_of_mem _ hc) hpc
    cases hp : p a with
    | true =>
      rw [List.filter_cons_of_pos hp, pairSum_cons, pairSum_cons, iht,
        map_sum_filter_zero (f a) t p fun b hb hpb => (hz b (List.mem_cons_of_mem _ hb) hpb).2 a]
    | false =>
      have hza := hz a (List.mem_cons_self _ _) hp
      rw [List.filter_cons_of_neg (by simp [hp]), pairSum_cons,
        List.sum_eq_zero (by
          intro x hx
          obtain ⟨b, hb, rfl⟩ := List.mem_map.1 hx
          exact hza.1 b), zero_add, iht]

theorem pairSum_perm (f : Atom → Atom → ℚ) (hsym : ∀ a b, f a b = f b a)
    {l1 l2 : List Atom} (h : l1.Perm l2) : pairSum f l1 = pairSum f l2 := by
  induction h with
  | nil => rfl
  | cons x p ih => rw [pairSum_cons, pairSum_cons, ih, (p.map (f x)).sum_eq]
  | swap x y l =>
    rw [pairSum_cons, pairSum_cons, pairSum_cons, pairSum_cons, List.map_cons,
      List.sum_cons, List.map_cons, List.sum_cons, hsym x y]
    ring
  | trans h1 h2 ih1 ih2 => rw [ih1, ih2]

/-! ### The lambda = 0 end state -/

theorem intraClj_atoms0 (m0 m1 : Molecule) (mapping : List (ℕ × ℕ)) :
    intraCljEnergy (mergedAtoms0 m0 m1 mapping) = intraCljEnergy m0.atoms := by
  unfold intraCljEnergy mergedAtoms0
  refine pairSum_append_zero cljPair _ _ ?_
  intro a ha
  obtain ⟨j, hj, rfl⟩ := List.mem_map.1 ha
  exact ⟨fun b => cljPair_dummify_left _ _, fun b => cljPair_dummify_right _ _⟩

theorem internal_atoms0 (m0 m1 : Molecule) (mapping : List (ℕ × ℕ))
    (hb : ∀ b ∈ m0.bonds, b.i < m0.nAtoms ∧ b.j < m0.nAtoms) :
    internalEnergy (mergedAtoms0 m0 m1 mapping) m0.bonds
      = internalEnergy m0.atoms m0.bonds := by
  unfold internalEnergy
  congr 1
  apply List.map_congr_left
  intro b hbmem
  unfold bondEnergy
  have h1 : atomAtL (mergedAtoms0 m0 m1 mapping) b.i = atomAtL m0.atoms b.i := by
    unfold mergedAtoms0 atomAtL
    rw [List.getElem?_append_left (hb b hbmem).1]
  have h2 : atomAtL (mergedAtoms0 m0 m1 mapping) b.j = atomAtL m0.atoms b.j := by
    unfold mergedAtoms0 atomAtL
    rw [List.getElem?_append_left (hb b hbmem).2]
  rw [h1, h2]

/-! ### The lambda = 1 end state -/

theorem idxOfNat_getElem? {j : ℕ} {l : List ℕ} (h : j ∈ l) :
    l[idxOfNat j l]? = some j := by
  induction l with
  | nil => simp at h
  | cons a t ih =>
    rw [idxOfNat]
    by_cases ha : a = j
    · rw [if_pos ha, ha, List.getElem?_cons_zero]
    · rw [if_neg ha, List.getElem?_cons_succ]
      rcases List.mem_cons.1 h with h1 | h1
      · exact absurd h1.symm ha
      · exact ih h1

theorem atomAt_mem {m : Molecule} {j : ℕ} (hj : j < m.nAtoms) :
    atomAt m j ∈ m.atoms := by
  have hj2 : j < m.atoms.length := hj
  rw [atomAt, atomAtL, List.getElem?_eq_getElem hj2]
  exact List.getElem_mem hj2

theorem realAtom_of_wf {m : Molecule} (hm : ∀ a ∈ m.atoms, a.elem ≠ Elem.dummy)
    {j : ℕ} (hj : j < m.nAtoms) : realAtom (atomAt m j) = true :=
  bne_iff_ne.2 (hm _ (atomAt_mem hj))

theorem atoms1_at_slot (m0 m1 : Molecule) (mapping : List (ℕ × ℕ))
    (hkeys : (mapping.map Prod.fst).Nodup)
    (hrange : ∀ kv ∈ mapping, kv.1 < m0.nAtoms ∧ kv.2 < m1.nAtoms)
    (j : ℕ) (hj : j < m1.nAtoms) :
    atomAtL (mergedAtoms1 m0 m1 mapping) (slotOf m0 m1 mapping j) = atomAt m1 j := by
  rw [slotOf]
  cases hf : (mapping.find? (fun kv => kv.2 == j)).map Prod.fst with
  | some i =>
    obtain ⟨kv, hkv, hkvi⟩ : ∃ kv, mapping.find? (fun kv => kv.2 == j) = some kv ∧
        kv.1 = i := by
      cases hfk : mapping.find? (fun kv => kv.2 == j) with
      | none => rw [hfk] at hf; simp at hf
      | some kv =>
        rw [hfk] at hf
        simp only [Option.map_some', Option.some.injEq] at hf
        exact ⟨kv, rfl, hf⟩
    have hkvm : kv ∈ mapping := List.mem_of_find?_eq_some hkv
    have hkvj : kv.2 = j := by simpa using List.find?_some hkv
    have hilt : i < m0.nAtoms := hkvi ▸ (hrange kv hkvm).1
    rw [mergedAtoms1, atomAtL,
      List.getElem?_append_left (by
        rw [List.length_map, List.length_range]
        exact hilt),
      List.getElem?_map, List.getElem?_range hilt]
    simp only [Option.map_some', Option.getD_some]
    rw [state1Atom]
    have hmemij : (i, j) ∈ mapping := by
      have hp : (kv.1, kv.2) ∈ mapping := by simpa using hkvm
      rw [hkvi, hkvj] at hp
      exact hp
    rw [lookup_eq_some_of_nodup hmemij hkeys]
  | none =>
    have hnm : mappedTo mapping j = false := by
      cases hfk : mapping.find? (fun kv => kv.2 == j) with
      | some kv => rw [hfk] at hf; simp at hf
      | none =>
        rw [mappedTo]
        by_contra hc
        rw [Bool.not_eq_false] at hc
        obtain ⟨kv, hkvm, hkvj⟩ := List.any_eq_true.1 hc
        exact List.find?_eq_none.1 hfk kv hkvm hkvj
    have hju : j ∈ unmappedIdx m1.nAtoms mapping := by
      rw [unmappedIdx, List.mem_filter]
      exact ⟨List.mem_range.2 hj, by rw [hnm]; rfl⟩
    rw [mergedAtoms1, atomAtL,
      List.getElem?_append_right (by
        rw [List.length_map, List.length_range]
        exact Nat.le_add_right _ _),
      List.length_map, List.length_range]
    have harith : m0.nAtoms + idxOfNat j (unmappedIdx m1.nAtoms mapping) - m0.nAtoms
        = idxOfNat j (unmappedIdx m1.nAtoms mapping) := by omega
    rw [harith, List.getElem?_map, idxOfNat_getElem? hju]
    rfl

theorem internal_atoms1 (m0 m1 : Molecule) (mapping : List (ℕ × ℕ))
    (hkeys : (mapping.map Prod.fst).Nodup)
    (hrange : ∀ kv ∈ mapping, kv.1 < m0.nAtoms ∧ kv.2 < m1.nAtoms)
    (hb1 : ∀ b ∈ m1.bonds, b.i < m1.nAtoms ∧ b.j < m1.nAtoms) :
    internalEnergy (mergedAtoms1 m0 m1 mapping)
        (m1.bonds.map (remapBond m0 m1 mapping))
      = internalEnergy m1.atoms m1.bonds := by
  unfold internalEnergy
  rw [List.map_map]
  congr 1
  apply List.map_congr_left
  intro b hbmem
  show bondEnergy (mergedAtoms1 m0 m1 mapping) (remapBond m0 m1 mapping b)
    = bondEnergy m1.atoms b
  unfold bondEnergy remapBond
  show b.k * (sqDist
      (atomAtL (mergedAtoms1 m0 m1 mapping) (slotOf m0 m1 mapping b.i)).pos
      (atomAtL (mergedAtoms1 m0 m1 mapping) (slotOf m0 m1 mapping b.j)).pos
        - b.r0) ^ 2 = _
  rw [atoms1_at_slot m0 m1 mapping hkeys hrange b.i (hb1 b hbmem).1,
    atoms1_at_slot m0 m1 mapping hkeys hrange b.j (hb1 b hbmem).2]
  rfl

theorem fst_eq_of_nodup_snd {l : List (ℕ × ℕ)} (h : (l.map Prod.snd).Nodup)
    {a a2 b : ℕ} (h1 : (a, b) ∈ l) (h2 : (a2, b) ∈ l) : a = a2 := by
  induction l with
  | nil => simp at h1
  | cons p t ih =>
    rw [List.map_cons, List.nodup_cons] at h
    rcases List.mem_cons.1 h1 with h1a | h1a <;> rcases List.mem_cons.1 h2 with h2a | h2a
    · have hq : (a, b) = (a2, b) := h1a.trans h2a.symm
      simpa using hq
    · exfalso
      apply h.1
      rw [← h1a]
      exact List.mem_map.2 ⟨(a2, b), h2a, rfl⟩
    · exfalso
      apply h.1
      rw [← h2a]
      exact List.mem_map.2 ⟨(a, b), h1a, rfl⟩
    · exact ih h.2 h1a h2a

theorem mem_range_filterMap_lookup {n0 : ℕ} {mapping : List (ℕ × ℕ)}
    (hkeys : (mapping.map Prod.fst).Nodup)
    (hr : ∀ kv ∈ mapping, kv.1 < n0) {x : ℕ} :
    x ∈ (List.range n0).filterMap (fun i => List.lookup i mapping)
      ↔ x ∈ mapping.map Prod.snd := by
  rw [List.mem_filterMap]
  constructor
  · rintro ⟨i, hi, hlk⟩
    exact List.mem_map.2 ⟨(i, x), mem_of_lookup_eq_some hlk, rfl⟩
  · intro hx
    obtain ⟨kv, hkv, rfl⟩ := List.mem_map.1 hx
    have hmem : (kv.1, kv.2) ∈ mapping := by simpa using hkv
    exact ⟨kv.1, List.mem_range.2 (hr kv hkv), lookup_eq_some_of_nodup hmem hkeys⟩

theorem nodup_range_filterMap_lookup {n0 : ℕ} {mapping : List (ℕ × ℕ)}
    (hvals : (mapping.map Prod.snd).Nodup) :
    ((List.range n0).filterMap (fun i => List.lookup i mapping)).Nodup := by
  refine List.Nodup.filterMap ?_ (List.nodup_range n0)
  intro a a2 b hb hb2
  have h1 : (a, b) ∈ mapping := mem_of_lookup_eq_some (Option.mem_def.1 hb)
  have h2 : (a2, b) ∈ mapping := mem_of_lookup_eq_some (Option.mem_def.1 hb2)
  exact fst_eq_of_nodup_snd hvals h1 h2

theorem perm_state1_indices (n0 n1 : ℕ) (mapping : List (ℕ × ℕ))
    (hkeys : (mapping.map Prod.fst).Nodup) (hvals : (mapping.map Prod.snd).Nodup)
    (hrange : ∀ kv ∈ mapping, kv.1 < n0 ∧ kv.2 < n1) :
    ((List.range n0).filterMap (fun i => List.lookup i mapping)
      ++ unmappedIdx n1 mapping).Perm (List.range n1) := by
  have hperm0 : ((List.range n1).filter (mappedTo mapping)).Perm
      ((List.range n0).filterMap (fun i => List.lookup i mapping)) := by
    refine List.perm_of_nodup_nodup_toFinset_eq
      (List.Nodup.filter _ (List.nodup_range n1))
      (nodup_range_filterMap_lookup hvals) ?_
    apply Finset.ext
    intro x
    simp only [List.mem_toFinset, List.mem_filter, List.mem_range]
    rw [mem_range_filterMap_lookup hkeys fun kv hkv => (hrange kv hkv).1]
    constructor
    · rintro ⟨hx1, hx2⟩
      obtain ⟨kv, hkv, hj⟩ := List.any_eq_true.1 hx2
      exact List.mem_map.2 ⟨kv, hkv, beq_iff_eq.1 hj⟩
    · intro hx
      obtain ⟨kv, hkv, rfl⟩ := List.mem_map.1 hx
      exact ⟨(hrange kv hkv).2,
        List.any_eq_true.2 ⟨kv, hkv, beq_self_eq_true _⟩⟩
  refine List.Perm.trans (hperm0.symm.append (List.Perm.refl _)) ?_
  unfold unmappedIdx
  exact List.filter_append_perm (mappedTo mapping) (List.range n1)

theorem filter_real_state1_map (m0 m1 : Molecule) (mapping : List (ℕ × ℕ))
    (hm1 : ∀ a ∈ m1.atoms, a.elem ≠ Elem.dummy)
    (hrange : ∀ kv ∈ mapping, kv.1 < m0.nAtoms ∧ kv.2 < m1.nAtoms)
    (l : List ℕ) :
    (l.map (state1Atom m0 m1 mapping)).filter realAtom
      = l.filterMap (fun i => (List.lookup i mapping).map (atomAt m1)) := by
  induction l with
  | nil => rfl
  | cons i t ih =>
    rw [List.map_cons, List.filterMap_cons]
    cases hlk : List.lookup i mapping with
    | some j =>
      have hjm : (i, j) ∈ mapping := mem_of_lookup_eq_some hlk
      have hreal : realAtom (state1Atom m0 m1 mapping i) = true := by
        simp only [state1Atom, hlk]
        exact realAtom_of_wf hm1 (hrange _ hjm).2
      rw [List.filter_cons_of_pos hreal, ih]
      simp [state1Atom, hlk]
    | none =>
      have hreal : realAtom (state1Atom m0 m1 mapping i) = false := by
        simp only [state1Atom, hlk]
        simp [realAtom, dummify]
      rw [List.filter_cons_of_neg (by simp [hreal]), ih]
      simp [hlk]

theorem m1_atoms_eq_map_range (m1 : Molecule) :
    (List.range m1.nAtoms).map (atomAt m1) = m1.atoms := by
  apply List.ext_getElem
  · rw [List.length_map, List.length_range]
    rfl
  · intro n h1 h2
    rw [List.getElem_map, List.getElem_range]
    rw [atomAt, atomAtL, List.getElem?_eq_getElem h2]
    rfl

theorem intraClj_atoms1 (m0 m1 : Molecule) (mapping : List (ℕ × ℕ))
    (hm1 : ∀ a ∈ m1.atoms, a.elem ≠ Elem.dummy)
    (hkeys : (mapping.map Prod.fst).Nodup) (hvals : (mapping.map Prod.snd).Nodup)
    (hrange : ∀ kv ∈ mapping, kv.1 < m0.nAtoms ∧ kv.2 < m1.nAtoms) :
    intraCljEnergy (mergedAtoms1 m0 m1 mapping) = intraCljEnergy m1.atoms := by
  have hextrabound : ∀ j ∈ unmappedIdx m1.nAtoms mapping, j < m1.nAtoms := by
    intro j hj
    unfold unmappedIdx at hj
    exact List.mem_range.1 (List.mem_filter.1 hj).1
  unfold intraCljEnergy
  rw [pairSum_filter cljPair realAtom (mergedAtoms1 m0 m1 mapping) ?hz]
  case hz =>
    intro a ha hfa
    unfold mergedAtoms1 at ha
    rcases List.mem_append.1 ha with ha | ha
    · obtain ⟨i, hi, rfl⟩ := List.mem_map.1 ha
      cases hlk : List.lookup i mapping with
      | some j =>
        exfalso
        have hjm := mem_of_lookup_eq_some hlk
        have hreal : realAtom (state1Atom m0 m1 mapping i) = true := by
          simp only [state1Atom, hlk]
          exact realAtom_of_wf hm1 (hrange _ hjm).2
        simp [hreal] at hfa
      | none =>
        constructor
        · intro b
          simp only [state1Atom, hlk]
          exact cljPair_dummify_left _ _
        · intro b
          simp only [state1Atom, hlk]
          exact cljPair_dummify_right _ _
    · obtain ⟨j, hjext, rfl⟩ := List.mem_map.1 ha
      exfalso
      have hreal := realAtom_of_wf hm1 (hextrabound j hjext)
      simp [hreal] at hfa
  unfold mergedAtoms1
  rw [List.filter_append, filter_real_state1_map m0 m1 mapping hm1 hrange,
    List.filter_eq_self.2 ?hb]
  case hb =>
    intro a ha
    obtain ⟨j, hjext, rfl⟩ := List.mem_map.1 ha
    exact realAtom_of_wf hm1 (hextrabound j hjext)
  rw [← List.map_filterMap (fun i => List.lookup i mapping) (atomAt m1),
    ← List.map_append]
  rw [pairSum_perm cljPair cljPair_comm
    ((perm_state1_indices m0.nAtoms m1.nAtoms mapping hkeys hvals hrange).map
      (atomAt m1)),
    m1_atoms_eq_map_range]

/-- C3: a merged dual-topology molecule reproduces, at each end state, both
the intramolecular non-bonded energy and the internal bonded energy of the
corresponding original molecule (exactly, in `ℚ`): the lambda = 0
(suffix-0) properties give the energies of `m0`, the lambda = 1 (suffix-1)
properties those of `m1`. -/
theorem merge_end_state_energies (m0 m1 : Molecule) (mapping : List (ℕ × ℕ))
    (rb rs : Bool) (M : Merged)
    (hm0 : wfMolecule m0) (hm1 : wfMolecule m1) (hmap : wfMapping m0 m1 mapping)
    (hM : merge m0 m1 mapping rb rs = .ok M) :
    intraCljEnergy M.atoms0 = intraCljEnergy m0.atoms ∧
    internalEnergy M.atoms0 M.bonds0 = internalEnergy m0.atoms m0.bonds ∧
    intraCljEnergy M.atoms1 = intraCljEnergy m1.atoms ∧
    internalEnergy M.atoms1 M.bonds1 = internalEnergy m1.atoms m1.bonds := by
  have hMr : M = mergeRaw m0 m1 mapping := by
    rw [merge] at hM
    split at hM
    · exact absurd hM (by simp)
    · split at hM
      · exact absurd hM (by simp)
      · simpa using hM.symm
  subst hMr
  obtain ⟨hm0a, hm0b⟩ := hm0
  obtain ⟨hm1a, hm1b⟩ := hm1
  obtain ⟨hkeys, hvals, hrange⟩ := hmap
  exact ⟨intraClj_atoms0 m0 m1 mapping,
    internal_atoms0 m0 m1 mapping hm0b,
    intraClj_atoms1 m0 m1 mapping hm1a hkeys hvals hrange,
    internal_atoms1 m0 m1 mapping hkeys hrange hm1b⟩

/-- Closed instance of the end-state energy theorem: a bonded two-atom
molecule merged onto a three-atom chain by the partial identity mapping. -/
theorem merge_end_state_energies_example :
    wfMolecule diatomic ∧ wfMolecule chainMol ∧
    wfMapping diatomic chainMol mapId2 ∧
    merge diatomic chainMol mapId2 false false
      = .ok (mergeRaw diatomic chainMol mapId2) ∧
    (intraCljEnergy (mergeRaw diatomic chainMol mapId2).atoms0
        = intraCljEnergy diatomic.atoms ∧
      internalEnergy (mergeRaw diatomic chainMol mapId2).atoms0
          (mergeRaw diatomic chainMol mapId2).bonds0
        = internalEnergy diatomic.atoms diatomic.bonds ∧
      intraCljEnergy (mergeRaw diatomic chainMol mapId2).atoms1
        = intraCljEnergy chainMol.atoms ∧
      internalEnergy (mergeRaw diatomic chainMol mapId2).atoms1
          (mergeRaw diatomic chainMol mapId2).bonds1
        = internalEnergy chainMol.atoms chainMol.bonds) :=
  ⟨by unfold wfMolecule; decide, by unfold wfMolecule; decide,
    by unfold wfMapping; decide, rfl,
    merge_end_state_energies diatomic chainMol mapId2 false false _
      (by unfold wfMolecule; decide) (by unfold wfMolecule; decide)
      (by unfold wfMapping; decide) rfl⟩
